import Mathlib

/-!
Verification of the redep2p tracker/peer file-distribution system.

The tracker ("edge") keeps three maps: a file index (filename to the set of
peers holding it), a last-seen timestamp per peer, and a per-peer checksum
map. Peers report inventories via heartbeats, query for holders, and
download with failover across candidate holders; every control message is a
JSON object framed by a single delimiter byte. This file embeds those
operations as pure Lean functions and proves the specified properties.

Python dictionaries become association lists, Python sets become `Finset`s,
wall-clock times become `Int`, file contents are abstracted to byte counts,
and the byte stream of a connection becomes a list of characters (every
serialized control message is ASCII) or a list of chunk sizes.
-/

namespace Redep2p

abbrev FName := String
abbrev PeerId := String

/-! ## Tracker index (edge.py) -/

/-- The tracker's in-memory state: the three maps owned by `EdgeServer`
(`files_index`, `peers_last_seen`, `peer_checksums` in edge.py). -/
structure EdgeState where
  files_index : List (FName × Finset PeerId)
  peers_last_seen : List (PeerId × Int)
  peer_checksums : List (PeerId × List (FName × String))
deriving DecidableEq

/-- The empty tracker state (`EdgeServer.__init__`). -/
def initState : EdgeState := ⟨[], [], []⟩

/-- Update-or-append on an association list: embeds Python dict assignment
`d[k] = v`. -/
def alistSet {α β : Type} [DecidableEq α] (k : α) (v : β) :
    List (α × β) → List (α × β)
  | [] => [(k, v)]
  | (k', v') :: rest =>
    if k' = k then (k, v) :: rest else (k', v') :: alistSet k v rest

/-- `self.files_index[fname].add(peer_str)` on the defaultdict: insert the
peer into the entry for `fname` if present, otherwise create the entry
holding just `peer`. -/
def idxAdd (peer : PeerId) (fname : FName) :
    List (FName × Finset PeerId) → List (FName × Finset PeerId)
  | [] => [(fname, {peer})]
  | (f, hs) :: rest =>
    if f = fname then (f, insert peer hs) :: rest
    else (f, hs) :: idxAdd peer fname rest

/-- Step 1 of `_handle_heartbeat`, per index entry: if the peer holds the
file but no longer reports it, discard the peer and drop the entry when its
holder set becomes empty; otherwise keep the entry unchanged. -/
def pruneEntry (peer : PeerId) (files : List FName) (e : FName × Finset PeerId) :
    Option (FName × Finset PeerId) :=
  if peer ∈ e.2 ∧ e.1 ∉ files then
    let hs := e.2.erase peer
    if hs = ∅ then none else some (e.1, hs)
  else some e

/-- The index mutation of `EdgeServer._handle_heartbeat` (edge.py lines
167-180): remove the peer from entries it no longer reports (pruning emptied
entries), add it to every reported filename, stamp `peers_last_seen`, and
replace the peer's checksum map wholesale. The reported `files` arrive as
the heartbeat's list; Python converts it to a set, so membership tests are
list membership and the per-filename insertion is idempotent. -/
def merge_heartbeat (peer : PeerId) (files : List FName)
    (checksums : List (FName × String)) (now : Int) (s : EdgeState) :
    EdgeState where
  files_index :=
    files.foldl (fun idx f => idxAdd peer f idx)
      (s.files_index.filterMap (pruneEntry peer files))
  peers_last_seen := alistSet peer now s.peers_last_seen
  peer_checksums := alistSet peer checksums s.peer_checksums

/-- `EdgeServer._handle_query`: `list(self.files_index.get(fname, []))`, a
copy of the current holder set, empty when the filename is absent. -/
def query (s : EdgeState) (f : FName) : Finset PeerId :=
  (s.files_index.lookup f).getD ∅

/-- One `_janitor` pass, per index entry: scrub a dead peer from the holder
set, deleting the entry if the set empties. -/
def scrubEntry (peer : PeerId) (e : FName × Finset PeerId) :
    Option (FName × Finset PeerId) :=
  if peer ∈ e.2 then
    let hs := e.2.erase peer
    if hs = ∅ then none else some (e.1, hs)
  else some e

/-- Whether any index entry still lists `peer` (this is what flips the
janitor's `changed` flag while the peer is scrubbed). -/
def peerHeld (peer : PeerId) (idx : List (FName × Finset PeerId)) : Bool :=
  idx.any fun e => decide (peer ∈ e.2)

/-- One pass of `EdgeServer._janitor` (edge.py lines 202-215) at time `now`:
drop every peer whose last heartbeat is older than `now - timeout` from
`peers_last_seen` and from every holder set (pruning emptied entries), and
report whether any holder set was mutated. -/
def sweep (timeout now : Int) (s : EdgeState) : EdgeState × Bool :=
  let cutoff := now - timeout
  let dead := (s.peers_last_seen.filter fun pt => decide (pt.2 < cutoff)).map
    Prod.fst
  let survivors := s.peers_last_seen.filter fun pt => ! decide (pt.2 < cutoff)
  let r := dead.foldl
    (fun (acc : List (FName × Finset PeerId) × Bool) p =>
      (acc.1.filterMap (scrubEntry p), acc.2 || peerHeld p acc.1))
    (s.files_index, false)
  ({ s with files_index := r.1, peers_last_seen := survivors }, r.2)

/-- `EdgeServer._clear_catalog`: `self.files_index.clear()` — it empties the
file index (and truncates catalog.txt on disk), touching neither
`peers_last_seen` nor `peer_checksums`. -/
def clear_catalog (s : EdgeState) : EdgeState :=
  { s with files_index := [] }

/-- A heartbeat from a peer: reported file list, checksum map, arrival time. -/
structure Heartbeat where
  files : List FName
  checksums : List (FName × String)
  now : Int

/-- Fold a sequence of heartbeats from one fixed peer into the tracker. -/
def applyHeartbeats (peer : PeerId) (hbs : List Heartbeat) (s : EdgeState) :
    EdgeState :=
  hbs.foldl (fun st hb => merge_heartbeat peer hb.files hb.checksums hb.now st) s

/-- Tracker states reachable from startup through the index operations
(`query` reads without mutating, so it contributes no step). -/
inductive Reachable : EdgeState → Prop
  | init : Reachable initState
  | heartbeat {s} (peer : PeerId) (files : List FName)
      (checksums : List (FName × String)) (now : Int) :
      Reachable s → Reachable (merge_heartbeat peer files checksums now s)
  | sweep {s} (timeout now : Int) :
      Reachable s → Reachable (sweep timeout now s).1
  | clear {s} : Reachable s → Reachable (clear_catalog s)

/-- The index invariant of the spec: no entry of the file index carries an
empty holder set. -/
def IndexInv (s : EdgeState) : Prop := ∀ e ∈ s.files_index, e.2 ≠ ∅

/-- A concrete populated tracker state: one indexed file, one live peer,
one checksum report. -/
def populatedState : EdgeState :=
  ⟨[("a.txt", {"p"})], [("p", 5)], [("p", [("a.txt", "h")])]⟩

/-! ## Peer download server and client (peer.py) -/

/-- `BUF = 64 * 1024`, the transfer chunk size. -/
def BUF : Nat := 64 * 1024

/-- The chunk sizes `f.read(BUF)` yields while `Peer._handle_get` streams a
file of `size` bytes: full buffers, then the remainder, then EOF. -/
def sendChunks (size : Nat) : List Nat :=
  if size = 0 then []
  else min BUF size :: sendChunks (size - BUF)
termination_by size
decreasing_by
  have : 0 < BUF := by decide
  omega

/-- A GET request as `Peer._handle_get` reads it: the dict's `type` value
and its optional `filename` value (`req.get('filename')`). -/
structure GetRequest where
  reqType : String
  filename : Option String

/-- What `Peer._handle_get` does with one accepted connection. `crashed`
is the unhandled `TypeError` raised when a GET carries no filename
(`self.folder / None`). -/
inductive GetOutcome where
  | closedNoReply
  | repliedError (message : String)
  | repliedFileInfo (size : Nat) (streamed : Nat)
  | crashed
deriving DecidableEq

/-- `Peer._handle_get` (peer.py lines 62-94), with the local share folder
abstracted to a map from filename to byte length: no or non-GET message →
close silently; unknown file → ERROR FILE_NOT_FOUND; known file → FILE_INFO
with its exact size followed by the raw chunks of `sendChunks`. -/
def handle_get (req : Option GetRequest) (folder : List (FName × Nat)) :
    GetOutcome :=
  match req with
  | none => .closedNoReply
  | some r =>
    if r.reqType ≠ "GET" then .closedNoReply
    else
      match r.filename with
      | none => .crashed
      | some f =>
        match folder.lookup f with
        | none => .repliedError "FILE_NOT_FOUND"
        | some size => .repliedFileInfo size (sendChunks size).sum

/-- The receive loop of `Peer.download` (peer.py lines 212-218): while fewer
than `size` bytes have arrived, take the next chunk from the stream; an
empty chunk (EOF) breaks out. Returns the final `received` count, which is
also the byte length written to the destination file. -/
def recvLoop (size : Nat) : List Nat → Nat → Nat
  | [], received => received
  | c :: rest, received =>
    if received < size then
      if c = 0 then received else recvLoop size rest (received + c)
    else received

/-- How one candidate holder behaves when `Peer.download` tries it:
connection failure, no reply, an ERROR reply, a reply of unexpected kind,
or FILE_INFO with a declared size followed by a stream of raw chunks. -/
inductive HolderBehavior where
  | connectFail
  | noReply
  | errorReply
  | unexpectedReply
  | fileInfo (size : Nat) (chunks : List Nat)

/-- The overall result of the holder loop in `Peer.download`. -/
inductive DownloadOutcome where
  | ok (size : Nat)
  | incomplete
  | allFailed
deriving DecidableEq

/-- The failover loop of `Peer.download` (peer.py lines 175-232): skip
oneself, advance past connection failures, missing replies, ERROR replies
and replies of unexpected kind; on FILE_INFO open `self.folder / fname` for
writing (`dest`), receive into it, and finish the whole operation — with
`download ok` when the received count equals the declared size and
`download incompleto` otherwise. Returns the share folder's final contents
and the outcome. -/
def attemptHolders (selfId : PeerId) (fname : FName)
    (folder : List (FName × Nat)) :
    List (PeerId × HolderBehavior) → List (FName × Nat) × DownloadOutcome
  | [] => (folder, .allFailed)
  | (h, b) :: rest =>
    if h = selfId then attemptHolders selfId fname folder rest
    else
      match b with
      | .fileInfo size chunks =>
        let received := recvLoop size chunks 0
        (alistSet fname received folder,
          if received = size then .ok size else .incomplete)
      | _ => attemptHolders selfId fname folder rest

/-! ## Message channel (proto.py, with names.py and the json module
modelled from the spec) -/

/-- Modelled from the spec: `DELIM` of names.py, the "single fixed delimiter
byte" appended after every serialized message — the newline byte, per the
comments in proto.py. The stream is modelled at the character level; every
serialized control message is ASCII, so characters and bytes coincide. -/
def DELIM : Char := '\n'

/-- Structured messages: the JSON values the system's control messages are
built from (objects, arrays, strings, integers, booleans, null; no message
carries a float). -/
inductive Json where
  | null
  | bool (b : Bool)
  | num (n : Int)
  | str (s : String)
  | arr (elements : List Json)
  | obj (fields : List (String × Json))

/-- Modelled from the spec: a hexadecimal digit, lowercase as Python emits
them. -/
def hexDigitChar (d : Nat) : Char :=
  if d < 10 then Char.ofNat (48 + d) else Char.ofNat (87 + d)

/-- Modelled from the spec: four-digit hexadecimal rendering used by the
`\uXXXX` escape. -/
def hex4 (n : Nat) : List Char :=
  [hexDigitChar (n / 4096 % 16), hexDigitChar (n / 256 % 16),
   hexDigitChar (n / 16 % 16), hexDigitChar (n % 16)]

/-- Modelled from the spec: how the serializer escapes one character of a
string so that no control character — in particular the delimiter byte —
ever occurs unescaped inside the payload: quote and backslash get a
backslash escape, control characters become `\uXXXX`, everything else is
emitted verbatim. -/
def escChar (c : Char) : List Char :=
  if c = '\"' then ['\\', '\"']
  else if c = '\\' then ['\\', '\\']
  else if c.toNat < 32 then '\\' :: 'u' :: hex4 c.toNat
  else [c]

/-- Escape a whole string body. -/
def escString (s : String) : List Char := s.data.flatMap escChar

/-- The decimal digits of `n`, most significant first. -/
def natDigits (n : Nat) : List Char :=
  if n < 10 then [Char.ofNat (48 + n)]
  else natDigits (n / 10) ++ [Char.ofNat (48 + n % 10)]
termination_by n
decreasing_by
  exact Nat.div_lt_self (by omega) (by omega)

mutual

/-- Modelled from the spec: `json.dumps` — serialize a structured message
to its JSON text (Python's default separators put one space after each
comma and colon). -/
def dumpsVal : Json → List Char
  | .null => ['n', 'u', 'l', 'l']
  | .bool b => if b then ['t', 'r', 'u', 'e'] else ['f', 'a', 'l', 's', 'e']
  | .num n => if n < 0 then '-' :: natDigits n.natAbs else natDigits n.natAbs
  | .str s => '\"' :: escString s ++ ['\"']
  | .arr [] => ['[', ']']
  | .arr (x :: xs) => '[' :: dumpsVal x ++ dumpsElems xs ++ [']']
  | .obj [] => ['\x7b', '\x7d']
  | .obj (kv :: fs) => '\x7b' :: dumpsField kv ++ dumpsFields fs ++ ['\x7d']

/-- Serialize the remaining array elements, each preceded by ", ". -/
def dumpsElems : List Json → List Char
  | [] => []
  | x :: xs => ',' :: ' ' :: dumpsVal x ++ dumpsElems xs

/-- Serialize one object field: quoted key, ": ", value. -/
def dumpsField : String × Json → List Char
  | (k, v) => '\"' :: escString k ++ '\"' :: ':' :: ' ' :: dumpsVal v

/-- Serialize the remaining object fields, each preceded by ", ". -/
def dumpsFields : List (String × Json) → List Char
  | [] => []
  | kv :: fs => ',' :: ' ' :: dumpsField kv ++ dumpsFields fs

end

/-- JSON whitespace. -/
def isWsChar (c : Char) : Bool :=
  c = ' ' || c = '\t' || c = '\n' || c = '\r'

/-- Skip leading whitespace. -/
def skipWs : List Char → List Char
  | [] => []
  | c :: rest => if isWsChar c then skipWs rest else c :: rest

/-- A decimal digit character (code points 48-57). -/
def isDigitChar (c : Char) : Bool :=
  decide (48 ≤ c.toNat) && decide (c.toNat ≤ 57)

/-- Value of a hexadecimal digit character, if it is one. -/
def hexVal (c : Char) : Option Nat :=
  if '0' ≤ c ∧ c ≤ '9' then some (c.toNat - 48)
  else if 'a' ≤ c ∧ c ≤ 'f' then some (c.toNat - 87)
  else if 'A' ≤ c ∧ c ≤ 'F' then some (c.toNat - 55)
  else none

/-- Modelled from the spec: the string-body scanner of `json.loads` —
consume characters up to the closing quote, decoding backslash escapes. -/
def parseStringBody : List Char → Option (List Char × List Char)
  | [] => none
  | c :: rest =>
    if c = '\"' then some ([], rest)
    else if c = '\\' then
      match rest with
      | [] => none
      | e :: rest' =>
        if e = '\"' then
          (parseStringBody rest').map fun p => ('\"' :: p.1, p.2)
        else if e = '\\' then
          (parseStringBody rest').map fun p => ('\\' :: p.1, p.2)
        else if e = '/' then
          (parseStringBody rest').map fun p => ('/' :: p.1, p.2)
        else if e = 'n' then
          (parseStringBody rest').map fun p => ('\n' :: p.1, p.2)
        else if e = 't' then
          (parseStringBody rest').map fun p => ('\t' :: p.1, p.2)
        else if e = 'r' then
          (parseStringBody rest').map fun p => ('\r' :: p.1, p.2)
        else if e = 'b' then
          (parseStringBody rest').map fun p => (Char.ofNat 8 :: p.1, p.2)
        else if e = 'f' then
          (parseStringBody rest').map fun p => (Char.ofNat 12 :: p.1, p.2)
        else if e = 'u' then
          match rest' with
          | h1 :: h2 :: h3 :: h4 :: rest'' =>
            match hexVal h1, hexVal h2, hexVal h3, hexVal h4 with
            | some a, some b, some c', some d =>
              (parseStringBody rest'').map fun p =>
                (Char.ofNat (a * 4096 + b * 256 + c' * 16 + d) :: p.1, p.2)
            | _, _, _, _ => none
          | _ => none
        else none
    else (parseStringBody rest).map fun p => (c :: p.1, p.2)

/-- Maximal-munch scan of decimal digits, folding them onto `acc`. -/
def parseDigits : List Char → Nat → Nat × List Char
  | [], acc => (acc, [])
  | c :: rest, acc =>
    if isDigitChar c then parseDigits rest (acc * 10 + (c.toNat - 48))
    else (acc, c :: rest)

/-- Modelled from the spec: the number scanner of `json.loads`, restricted
to the integers the system's messages carry. -/
def parseNumber : List Char → Option (Json × List Char)
  | [] => none
  | c :: rest =>
    if c = '-' then
      match rest with
      | [] => none
      | d :: rest' =>
        if isDigitChar d then
          let r := parseDigits rest' (d.toNat - 48)
          some (.num (-(r.1 : Int)), r.2)
        else none
    else if isDigitChar c then
      let r := parseDigits rest (c.toNat - 48)
      some (.num (r.1 : Int), r.2)
    else none

mutual

/-- Modelled from the spec: `json.loads`'s value parser, with a fuel bound
on recursion depth. Dispatches on the first non-whitespace character. -/
def parseVal : Nat → List Char → Option (Json × List Char)
  | 0, _ => none
  | fuel + 1, s =>
    match skipWs s with
    | [] => none
    | c :: rest =>
      if c = 'n' then
        match rest with
        | 'u' :: 'l' :: 'l' :: r => some (.null, r)
        | _ => none
      else if c = 't' then
        match rest with
        | 'r' :: 'u' :: 'e' :: r => some (.bool true, r)
        | _ => none
      else if c = 'f' then
        match rest with
        | 'a' :: 'l' :: 's' :: 'e' :: r => some (.bool false, r)
        | _ => none
      else if c = '\"' then
        (parseStringBody rest).map fun p => (.str (String.mk p.1), p.2)
      else if c = '[' then
        match skipWs rest with
        | [] => none
        | d :: r2 =>
          if d = ']' then some (.arr [], r2)
          else
            match parseVal fuel (d :: r2) with
            | some (v, s2) =>
              (parseElems fuel s2).map fun p => (.arr (v :: p.1), p.2)
            | none => none
      else if c = '\x7b' then
        match skipWs rest with
        | [] => none
        | d :: r2 =>
          if d = '\x7d' then some (.obj [], r2)
          else
            match parseField fuel (d :: r2) with
            | some (kv, s2) =>
              (parseFields fuel s2).map fun p => (.obj (kv :: p.1), p.2)
            | none => none
      else parseNumber (c :: rest)

/-- After one array element: a comma continues with the next element, a
closing bracket ends the array. -/
def parseElems : Nat → List Char → Option (List Json × List Char)
  | 0, _ => none
  | fuel + 1, s =>
    match skipWs s with
    | [] => none
    | c :: rest =>
      if c = ']' then some ([], rest)
      else if c = ',' then
        match parseVal fuel rest with
        | some (v, s') => (parseElems fuel s').map fun p => (v :: p.1, p.2)
        | none => none
      else none

/-- One object field: quoted key, colon, value. -/
def parseField : Nat → List Char → Option ((String × Json) × List Char)
  | 0, _ => none
  | fuel + 1, s =>
    match skipWs s with
    | [] => none
    | c :: rest =>
      if c = '\"' then
        match parseStringBody rest with
        | some (k, s') =>
          match skipWs s' with
          | [] => none
          | d :: s'' =>
            if d = ':' then
              (parseVal fuel s'').map fun p => ((String.mk k, p.1), p.2)
            else none
        | none => none
      else none

/-- After one object field: a comma continues, a closing brace ends. -/
def parseFields : Nat → List Char → Option (List (String × Json) × List Char)
  | 0, _ => none
  | fuel + 1, s =>
    match skipWs s with
    | [] => none
    | c :: rest =>
      if c = '\x7d' then some ([], rest)
      else if c = ',' then
        match parseField fuel rest with
        | some (kv, s') => (parseFields fuel s').map fun p => (kv :: p.1, p.2)
        | none => none
      else none

end

/-- Modelled from the spec: `json.loads` on a received payload — parse one
value with fuel ample for the input, requiring only whitespace to remain. -/
def loadsL (cs : List Char) : Option Json :=
  match parseVal (cs.length + 1) cs with
  | some (v, rest) => if skipWs rest = [] then some v else none
  | none => none

/-- `send_json` (proto.py lines 12-21): the bytes one call appends to the
connection's stream — the serialized message followed by the delimiter. -/
def send_json (obj : Json) : List Char := dumpsVal obj ++ [DELIM]

/-- The accumulation loop of `recv_json` (proto.py lines 30-38): consume the
stream up to the first delimiter, returning the payload read and the rest
of the stream; `none` when the stream ends before a delimiter (EOF). -/
def recvLine : List Char → Option (List Char × List Char)
  | [] => none
  | c :: rest =>
    if c = DELIM then some ([], rest)
    else (recvLine rest).map fun p => (c :: p.1, p.2)

/-- `recv_json` (proto.py lines 23-45): read one delimiter-framed payload
and deserialize it. The outer `Option` is the EOF `None`; the inner one
distinguishes a payload that fails to parse (Python raises). -/
def recv_json (stream : List Char) : Option (Option Json × List Char) :=
  (recvLine stream).map fun p => (loadsL p.1, p.2)

mutual

/-- Fuel measure of a JSON value: enough `parseVal` fuel to reparse it. -/
def jsizeV : Json → Nat
  | .null => 1
  | .bool _ => 1
  | .num _ => 1
  | .str _ => 1
  | .arr [] => 1
  | .arr (x :: xs) => 1 + jsizeV x + jsizeL xs
  | .obj [] => 1
  | .obj (kv :: fs) => 1 + jsizeKV kv + jsizeF fs

/-- Fuel measure of remaining array elements. -/
def jsizeL : List Json → Nat
  | [] => 0
  | x :: xs => 1 + jsizeV x + jsizeL xs

/-- Fuel measure of one object field. -/
def jsizeKV : String × Json → Nat
  | (_, v) => 1 + jsizeV v

/-- Fuel measure of remaining object fields. -/
def jsizeF : List (String × Json) → Nat
  | [] => 0
  | kv :: fs => 1 + jsizeKV kv + jsizeF fs

end

/-- A stream whose first character (if any) is not a decimal digit — the
condition under which the maximal-munch number scanner stops exactly at a
serialized number's end. -/
def headNotDigit (s : List Char) : Prop :=
  ∀ c, s.head? = some c → isDigitChar c = false

/-! ## Association-list and index lemmas -/

theorem lookup_mem {α β : Type} [BEq α] [LawfulBEq α] {f : α} {v : β}
    {l : List (α × β)} (h : l.lookup f = some v) : (f, v) ∈ l := by
  obtain ⟨l₁, l₂, rfl, -⟩ := List.lookup_eq_some_iff.mp h
  simp

theorem mem_keys_iff_lookup {α β : Type} [BEq α] [LawfulBEq α] (f : α)
    (l : List (α × β)) : f ∈ l.map Prod.fst ↔ ∃ v, l.lookup f = some v := by
  rw [← Option.isSome_iff_exists, List.lookup_isSome_iff]
  constructor
  · intro h
    obtain ⟨x, hx, hf⟩ := List.mem_map.mp h
    exact ⟨x, hx, by simp [hf]⟩
  · rintro ⟨x, hx, hf⟩
    have hx1 : f = x.1 := by simpa using hf
    exact List.mem_map.mpr ⟨x, hx, hx1.symm⟩

theorem lookup_idxAdd_self (p : PeerId) (f : FName)
    (idx : List (FName × Finset PeerId)) :
    (idxAdd p f idx).lookup f = some (insert p ((idx.lookup f).getD ∅)) := by
  induction idx with
  | nil => simp [idxAdd]
  | cons e rest ih =>
    obtain ⟨k, hs⟩ := e
    by_cases hk : k = f
    · subst hk; simp [idxAdd]
    · have hfk : (f == k) = false := beq_false_of_ne (Ne.symm hk)
      simp [idxAdd, hk, List.lookup_cons, hfk, ih]

theorem lookup_idxAdd_ne (p : PeerId) {g f : FName} (hne : g ≠ f)
    (idx : List (FName × Finset PeerId)) :
    (idxAdd p g idx).lookup f = idx.lookup f := by
  have hfg : (f == g) = false := beq_false_of_ne (Ne.symm hne)
  induction idx with
  | nil => simp [idxAdd, List.lookup_cons, hfg]
  | cons e rest ih =>
    obtain ⟨k, hs⟩ := e
    by_cases hk : k = g
    · subst hk; simp [idxAdd, List.lookup_cons, hfg]
    · simp [idxAdd, hk, List.lookup_cons, ih]

theorem mem_lookup_idxAdd_preserve {p : PeerId} {f : FName} (g : FName)
    {idx : List (FName × Finset PeerId)}
    (h : p ∈ (idx.lookup f).getD ∅) :
    p ∈ ((idxAdd p g idx).lookup f).getD ∅ := by
  by_cases hg : g = f
  · subst hg; simp [lookup_idxAdd_self]
  · rwa [lookup_idxAdd_ne p hg]

theorem mem_lookup_foldl_preserve {p : PeerId} {f : FName}
    (files : List FName) {idx : List (FName × Finset PeerId)}
    (h : p ∈ (idx.lookup f).getD ∅) :
    p ∈ ((files.foldl (fun i g => idxAdd p g i) idx).lookup f).getD ∅ := by
  induction files generalizing idx with
  | nil => simpa using h
  | cons g gs ih => exact ih (mem_lookup_idxAdd_preserve g h)

theorem mem_lookup_foldl_idxAdd {p : PeerId} {f : FName} {files : List FName}
    (hf : f ∈ files) (idx : List (FName × Finset PeerId)) :
    p ∈ ((files.foldl (fun i g => idxAdd p g i) idx).lookup f).getD ∅ := by
  induction files generalizing idx with
  | nil => cases hf
  | cons g gs ih =>
    by_cases hg : f ∈ gs
    · exact ih hg _
    · have hfg : g = f := by
        rcases List.mem_cons.mp hf with h | h
        · exact h.symm
        · exact absurd h hg
      subst hfg
      refine mem_lookup_foldl_preserve gs ?_
      simp [lookup_idxAdd_self]

theorem lookup_foldl_idxAdd_not_mem {p : PeerId} {f : FName}
    {files : List FName} (hf : f ∉ files)
    (idx : List (FName × Finset PeerId)) :
    (files.foldl (fun i g => idxAdd p g i) idx).lookup f = idx.lookup f := by
  induction files generalizing idx with
  | nil => rfl
  | cons g gs ih =>
    have hg : g ≠ f := fun h => hf (h ▸ List.mem_cons_self g gs)
    have hgs : f ∉ gs := fun h => hf (List.mem_cons_of_mem g h)
    rw [List.foldl_cons, ih hgs, lookup_idxAdd_ne p hg]

theorem prune_no_stale {p : PeerId} {files : List FName} {f : FName}
    {hs : Finset PeerId} {idx : List (FName × Finset PeerId)}
    (hmem : (f, hs) ∈ idx.filterMap (pruneEntry p files)) (hp : p ∈ hs) :
    f ∈ files := by
  obtain ⟨e, -, he⟩ := List.mem_filterMap.mp hmem
  by_cases hcond : p ∈ e.2 ∧ e.1 ∉ files
  · simp only [pruneEntry, if_pos hcond] at he
    by_cases hempty : e.2.erase p = ∅
    · rw [if_pos hempty] at he; cases he
    · rw [if_neg hempty] at he
      obtain ⟨rfl, rfl⟩ : e.1 = f ∧ e.2.erase p = hs := by simpa using he
      exact absurd hp (Finset.not_mem_erase p e.2)
  · simp only [pruneEntry, if_neg hcond] at he
    obtain rfl : e = (f, hs) := by simpa using he
    rcases not_and_or.mp hcond with h | h
    · exact absurd hp h
    · simpa using h

/-- For any prior tracker state, one accepted heartbeat makes the peer's
holder-set membership agree exactly with the file set that heartbeat
reported. -/
theorem mem_query_merge (s : EdgeState) (p : PeerId) (files : List FName)
    (cks : List (FName × String)) (now : Int) (f : FName) :
    p ∈ query (merge_heartbeat p files cks now s) f ↔ f ∈ files := by
  unfold query merge_heartbeat
  constructor
  · intro hmem
    by_contra hf
    rw [lookup_foldl_idxAdd_not_mem hf] at hmem
    rcases hlk : (s.files_index.filterMap (pruneEntry p files)).lookup f with
      _ | hs
    · simp [hlk] at hmem
    · rw [hlk] at hmem
      exact hf (prune_no_stale (lookup_mem hlk) (by simpa using hmem))
  · intro hf
    exact mem_lookup_foldl_idxAdd hf _

/-- Claim C1: across any sequence of accepted heartbeats from a fixed peer,
ending with a heartbeat reporting file set `last.files`, the tracker's
holder set for any filename contains the peer exactly when `last.files`
contains the filename — the merge is replace-by-diff, never a union of past
reports. -/
theorem heartbeat_last_report_wins (s : EdgeState) (peer : PeerId)
    (earlier : List Heartbeat) (last : Heartbeat) (f : FName) :
    peer ∈ query (applyHeartbeats peer (earlier ++ [last]) s) f ↔
      f ∈ last.files := by
  unfold applyHeartbeats
  rw [List.foldl_append]
  exact mem_query_merge _ peer last.files last.checksums last.now f

/-! ## The no-empty-holder-set invariant (claim C2) -/

theorem inv_filterMap_scrub {p : PeerId} {idx : List (FName × Finset PeerId)}
    (hinv : ∀ e ∈ idx, e.2 ≠ ∅) :
    ∀ e ∈ idx.filterMap (scrubEntry p), e.2 ≠ ∅ := by
  intro e he
  obtain ⟨a, ha, hae⟩ := List.mem_filterMap.mp he
  by_cases hp : p ∈ a.2
  · simp only [scrubEntry, if_pos hp] at hae
    by_cases hz : a.2.erase p = ∅
    · rw [if_pos hz] at hae; cases hae
    · rw [if_neg hz] at hae
      obtain rfl : (a.1, a.2.erase p) = e := by simpa using hae
      exact hz
  · simp only [scrubEntry, if_neg hp] at hae
    obtain rfl : a = e := by simpa using hae
    exact hinv _ ha

theorem inv_filterMap_prune {p : PeerId} {files : List FName}
    {idx : List (FName × Finset PeerId)} (hinv : ∀ e ∈ idx, e.2 ≠ ∅) :
    ∀ e ∈ idx.filterMap (pruneEntry p files), e.2 ≠ ∅ := by
  intro e he
  obtain ⟨a, ha, hae⟩ := List.mem_filterMap.mp he
  by_cases hp : p ∈ a.2 ∧ a.1 ∉ files
  · simp only [pruneEntry, if_pos hp] at hae
    by_cases hz : a.2.erase p = ∅
    · rw [if_pos hz] at hae; cases hae
    · rw [if_neg hz] at hae
      obtain rfl : (a.1, a.2.erase p) = e := by simpa using hae
      exact hz
  · simp only [pruneEntry, if_neg hp] at hae
    obtain rfl : a = e := by simpa using hae
    exact hinv _ ha

theorem inv_idxAdd {p : PeerId} {f : FName} {idx : List (FName × Finset PeerId)}
    (hinv : ∀ e ∈ idx, e.2 ≠ ∅) : ∀ e ∈ idxAdd p f idx, e.2 ≠ ∅ := by
  induction idx with
  | nil =>
    intro e he
    obtain rfl : e = (f, ({p} : Finset PeerId)) := by simpa [idxAdd] using he
    exact Finset.singleton_ne_empty p
  | cons a rest ih =>
    obtain ⟨k, hs⟩ := a
    intro e he
    by_cases hk : k = f
    · subst hk
      simp only [idxAdd, if_pos rfl] at he
      rcases List.mem_cons.mp he with rfl | hmem
      · exact Finset.insert_ne_empty p hs
      · exact hinv _ (List.mem_cons_of_mem _ hmem)
    · simp only [idxAdd, if_neg hk] at he
      rcases List.mem_cons.mp he with rfl | hmem
      · exact hinv _ (List.mem_cons_self _ _)
      · exact ih (fun e' he' => hinv _ (List.mem_cons_of_mem _ he')) _ hmem

theorem inv_foldl_idxAdd {p : PeerId} (files : List FName)
    {idx : List (FName × Finset PeerId)} (hinv : ∀ e ∈ idx, e.2 ≠ ∅) :
    ∀ e ∈ files.foldl (fun i g => idxAdd p g i) idx, e.2 ≠ ∅ := by
  induction files generalizing idx with
  | nil => exact hinv
  | cons g gs ih => exact ih (inv_idxAdd hinv)

theorem inv_sweep_fold (dead : List PeerId)
    (acc : List (FName × Finset PeerId) × Bool)
    (hinv : ∀ e ∈ acc.1, e.2 ≠ ∅) :
    ∀ e ∈ (dead.foldl
      (fun (acc : List (FName × Finset PeerId) × Bool) p =>
        (acc.1.filterMap (scrubEntry p), acc.2 || peerHeld p acc.1)) acc).1,
      e.2 ≠ ∅ := by
  induction dead generalizing acc with
  | nil => exact hinv
  | cons p ps ih => exact ih _ (inv_filterMap_scrub hinv)

theorem reachable_index_inv {s : EdgeState} (h : Reachable s) : IndexInv s := by
  induction h with
  | init => intro e he; cases he
  | heartbeat peer files checksums now _ ih =>
    exact inv_foldl_idxAdd files (inv_filterMap_prune ih)
  | sweep timeout now _ ih => exact inv_sweep_fold _ _ ih
  | clear _ _ => intro e he; cases he

/-- Claim C2: in every reachable tracker state, a filename is a key of the
file index exactly when its holder set is non-empty; no operation leaves a
filename mapped to an empty set. -/
theorem index_key_iff_holder_nonempty {s : EdgeState} (h : Reachable s)
    (f : FName) : f ∈ s.files_index.map Prod.fst ↔ query s f ≠ ∅ := by
  constructor
  · intro hk
    obtain ⟨v, hv⟩ := (mem_keys_iff_lookup f _).mp hk
    have hne : v ≠ ∅ := reachable_index_inv h _ (lookup_mem hv)
    simpa [query, hv] using hne
  · intro hq
    rcases hlk : s.files_index.lookup f with _ | v
    · exact absurd (by simp [query, hlk]) hq
    · exact (mem_keys_iff_lookup f _).mpr ⟨v, hlk⟩

/-- Witness for C2 at a concrete reachable state: after one heartbeat from
peer `p` reporting `a.txt`, the key `a.txt` is present and its holder set
is non-empty. -/
theorem index_key_iff_holder_nonempty_witness :
    "a.txt" ∈ (merge_heartbeat "p" ["a.txt"] [] 0 initState).files_index.map
      Prod.fst ↔
      query (merge_heartbeat "p" ["a.txt"] [] 0 initState) "a.txt" ≠ ∅ :=
  index_key_iff_holder_nonempty
    (Reachable.heartbeat "p" ["a.txt"] [] 0 Reachable.init) "a.txt"

/-! ## Clearing the catalog (claim C3) -/

/-- Counterexample to claim C3 as stated: `clear()` empties only the file
index — run on a state with a live peer and a stored checksum map, it
leaves `peers_last_seen` and `peer_checksums` non-empty. -/
theorem clear_catalog_spares_peer_maps_cex :
    (clear_catalog populatedState).files_index = [] ∧
    (clear_catalog populatedState).peers_last_seen ≠ [] ∧
    (clear_catalog populatedState).peer_checksums ≠ [] :=
  ⟨rfl, by decide, by decide⟩

/-- Claim C3 (amended): the clear operation run at tracker startup and
shutdown empties the FileIndex map (and truncates the on-disk catalog) but
leaves PeerLastSeen and PeerChecksums untouched. -/
theorem clear_catalog_clears_only_file_index (s : EdgeState) :
    (clear_catalog s).files_index = [] ∧
    (clear_catalog s).peers_last_seen = s.peers_last_seen ∧
    (clear_catalog s).peer_checksums = s.peer_checksums :=
  ⟨rfl, rfl, rfl⟩

/-! ## Query (claim C6) -/

/-- Claim C6: `query` on a filename absent from the index returns the empty
result rather than an error, and on a present filename returns exactly the
holder set stored in the index (the Python code hands back a fresh `list`
copy of that set; in this pure embedding the returned value is by
construction a snapshot that later index mutations cannot affect). -/
theorem query_returns_snapshot (s : EdgeState) (f : FName) :
    (f ∉ s.files_index.map Prod.fst → query s f = ∅) ∧
    ∀ hs, s.files_index.lookup f = some hs →
      query s f = hs ∧ (f, hs) ∈ s.files_index := by
  constructor
  · intro h
    rcases hlk : s.files_index.lookup f with _ | v
    · simp [query, hlk]
    · exact absurd ((mem_keys_iff_lookup f _).mpr ⟨v, hlk⟩) h
  · intro hs h
    exact ⟨by simp [query, h], lookup_mem h⟩

/-- Witness for C6: on a one-file index, querying an absent name yields the
empty set and querying the present name yields its stored holder set. -/
theorem query_returns_snapshot_witness :
    query populatedState "b.txt" = ∅ ∧ query populatedState "a.txt" = {"p"} :=
  ⟨(query_returns_snapshot populatedState "b.txt").1 (by decide),
   ((query_returns_snapshot populatedState "a.txt").2 {"p"} (by decide)).1⟩

/-! ## Eviction sweep (claims C7 and C10) -/

theorem filter_of_filter_not (p : (PeerId × Int) → Bool)
    (l : List (PeerId × Int)) : (l.filter fun x => !p x).filter p = [] := by
  induction l with
  | nil => rfl
  | cons x xs ih => by_cases hx : p x <;> simp [List.filter_cons, hx, ih]

theorem filter_not_idem (p : (PeerId × Int) → Bool)
    (l : List (PeerId × Int)) :
    (l.filter fun x => !p x).filter (fun x => !p x) =
      l.filter fun x => !p x := by
  induction l with
  | nil => rfl
  | cons x xs ih => by_cases hx : p x <;> simp [List.filter_cons, hx, ih]

/-- Claim C7: the eviction sweep is idempotent — with no intervening
heartbeat and the same current time, a second sweep returns the same state
and reports that nothing changed. -/
theorem sweep_idempotent (timeout now : Int) (s : EdgeState) :
    sweep timeout now (sweep timeout now s).1 =
      ((sweep timeout now s).1, false) := by
  conv_lhs => rw [sweep]
  rw [show ((sweep timeout now s).1).peers_last_seen
      = s.peers_last_seen.filter (fun pt => ! decide (pt.2 < now - timeout))
      from rfl]
  rw [filter_of_filter_not, filter_not_idem]
  rfl

/-- Claim C10: the eviction sweep never touches `peer_checksums` — an
evicted peer's last-reported checksum map stays in the table verbatim, so
entries of departed peers are never reclaimed by the janitor. -/
theorem sweep_frames_peer_checksums (timeout now : Int) (s : EdgeState) :
    (sweep timeout now s).1.peer_checksums = s.peer_checksums := rfl

/-! ## Peer download server (claim C9) -/

theorem sendChunks_sum (n : Nat) : (sendChunks n).sum = n := by
  induction n using Nat.strong_induction_on with
  | _ n ih =>
    by_cases h : n = 0
    · subst h; simp [sendChunks]
    · have hBUF : 0 < BUF := by decide
      have hrec : (sendChunks (n - BUF)).sum = n - BUF := ih _ (by omega)
      rw [sendChunks, if_neg h, List.sum_cons, hrec]
      omega

/-- Claim C9: per connection accepted by the peer's download server — a
missing or non-GET message closes with no reply; a GET for a file absent
from local storage is answered with ERROR FILE_NOT_FOUND; a GET for a
present file of `n` bytes is answered with FILE_INFO carrying exactly `n`
followed by a raw stream totalling exactly `n` bytes. -/
theorem handle_get_protocol (folder : List (FName × Nat)) :
    handle_get none folder = .closedNoReply ∧
    (∀ r, r.reqType ≠ "GET" → handle_get (some r) folder = .closedNoReply) ∧
    (∀ r f, r.reqType = "GET" → r.filename = some f →
      folder.lookup f = none →
      handle_get (some r) folder = .repliedError "FILE_NOT_FOUND") ∧
    (∀ r f n, r.reqType = "GET" → r.filename = some f →
      folder.lookup f = some n →
      handle_get (some r) folder = .repliedFileInfo n n) := by
  refine ⟨rfl, ?_, ?_, ?_⟩
  · intro r hr
    simp [handle_get, hr]
  · intro r f hr hf hlk
    simp [handle_get, hr, hf, hlk]
  · intro r f n hr hf hlk
    simp [handle_get, hr, hf, hlk, sendChunks_sum]

/-- Witness for C9: with a share folder holding only a 3-byte `a.txt` — a
missing message and a HEARTBEAT-typed message close silently, a GET for
`b.txt` draws FILE_NOT_FOUND, a GET for `a.txt` draws FILE_INFO of size 3
with 3 streamed bytes. -/
theorem handle_get_protocol_witness :
    handle_get none [("a.txt", 3)] = .closedNoReply ∧
    handle_get (some ⟨"HEARTBEAT", some "a.txt"⟩) [("a.txt", 3)] =
      .closedNoReply ∧
    handle_get (some ⟨"GET", some "b.txt"⟩) [("a.txt", 3)] =
      .repliedError "FILE_NOT_FOUND" ∧
    handle_get (some ⟨"GET", some "a.txt"⟩) [("a.txt", 3)] =
      .repliedFileInfo 3 3 :=
  ⟨(handle_get_protocol _).1,
   (handle_get_protocol _).2.1 _ (by decide),
   (handle_get_protocol _).2.2.1 _ "b.txt" rfl rfl (by decide),
   (handle_get_protocol _).2.2.2 _ "a.txt" 3 rfl rfl (by decide)⟩

/-! ## Download failover (claims C4 and C8) -/

theorem lookup_alistSet_self {α β : Type} [DecidableEq α] [BEq α]
    [LawfulBEq α] (k : α) (v : β) (l : List (α × β)) :
    (alistSet k v l).lookup k = some v := by
  induction l with
  | nil => simp [alistSet]
  | cons e rest ih =>
    obtain ⟨k', v'⟩ := e
    by_cases hk : k' = k
    · subst hk; simp [alistSet]
    · have : (k == k') = false := beq_false_of_ne (Ne.symm hk)
      simp [alistSet, hk, List.lookup_cons, this, ih]

/-- Claim C4: in the download loop, an ERROR reply, a reply of unexpected
kind, a missing reply or a connection failure merely advances to the next
candidate holder; but a holder that sends FILE_INFO and then delivers fewer
bytes than declared ends the entire operation as an incomplete download —
the remaining holders are never tried and the outcome is never success. -/
theorem download_failover_vs_short_read (selfId fname : FName)
    (folder : List (FName × Nat)) (h : PeerId)
    (rest : List (PeerId × HolderBehavior)) :
    (∀ b, b = HolderBehavior.connectFail ∨ b = HolderBehavior.noReply ∨
        b = HolderBehavior.errorReply ∨ b = HolderBehavior.unexpectedReply →
      attemptHolders selfId fname folder ((h, b) :: rest) =
        attemptHolders selfId fname folder rest) ∧
    ∀ size chunks, h ≠ selfId → recvLoop size chunks 0 < size →
      (attemptHolders selfId fname folder
        ((h, .fileInfo size chunks) :: rest)).2 = .incomplete ∧
      ∀ k, (attemptHolders selfId fname folder
        ((h, .fileInfo size chunks) :: rest)).2 ≠ .ok k := by
  constructor
  · rintro b (rfl | rfl | rfl | rfl) <;>
      by_cases hself : h = selfId <;> simp [attemptHolders, hself]
  · intro size chunks hne hshort
    have hneq : recvLoop size chunks 0 ≠ size := Nat.ne_of_lt hshort
    refine ⟨?_, ?_⟩
    · simp [attemptHolders, hne, hneq]
    · intro k
      simp [attemptHolders, hne, hneq]

/-- Witness for C4: an ERROR reply falls through to the remaining (empty)
holder list, while FILE_INFO declaring 5 bytes followed by a single 2-byte
chunk and EOF ends the operation as incomplete. -/
theorem download_failover_vs_short_read_witness :
    (attemptHolders "me" "a.txt" [] [("h", HolderBehavior.errorReply)] =
      attemptHolders "me" "a.txt" [] []) ∧
    (attemptHolders "me" "a.txt" []
      [("h", HolderBehavior.fileInfo 5 [2])]).2 = .incomplete :=
  ⟨(download_failover_vs_short_read "me" "a.txt" [] "h" []).1 _
      (Or.inr (Or.inr (Or.inl rfl))),
   ((download_failover_vs_short_read "me" "a.txt" [] "h" []).2 5 [2]
      (by decide) (by decide)).1⟩

/-- Counterexample to claim C8 as stated: `Peer.download` opens
`self.folder / fname` itself for writing — after FILE_INFO declares 5 bytes
but the stream yields only a 2-byte chunk before EOF, the share folder
already contains `a.txt` truncated to 2 bytes even though the download
ended incomplete. -/
theorem download_partial_file_in_share_cex :
    (attemptHolders "me" "a.txt" []
      [("h", HolderBehavior.fileInfo 5 [2])]).1 = [("a.txt", 2)] ∧
    (attemptHolders "me" "a.txt" []
      [("h", HolderBehavior.fileInfo 5 [2])]).2 = .incomplete := by
  decide

/-- Claim C8 (amended): on FILE_INFO the declared byte count is read from
the raw stream directly into the final destination path in the share
directory — not into a temporary — so after a short transfer the share
directory maps the filename to the partial byte count received. -/
theorem download_short_read_leaves_partial_file (selfId fname : FName)
    (folder : List (FName × Nat)) (h : PeerId) (size : Nat)
    (chunks : List Nat) (rest : List (PeerId × HolderBehavior))
    (hne : h ≠ selfId) (hshort : recvLoop size chunks 0 < size) :
    (attemptHolders selfId fname folder
      ((h, .fileInfo size chunks) :: rest)).2 = .incomplete ∧
    (attemptHolders selfId fname folder
      ((h, .fileInfo size chunks) :: rest)).1.lookup fname =
      some (recvLoop size chunks 0) := by
  have hneq : recvLoop size chunks 0 ≠ size := Nat.ne_of_lt hshort
  constructor
  · simp [attemptHolders, hne, hneq]
  · simp [attemptHolders, hne, hneq, lookup_alistSet_self]

/-- Witness for C8 (amended): declared size 9, stream delivering chunks of
1 and 2 bytes then EOF — the operation is incomplete and the share folder
records `a.txt` at 3 bytes. -/
theorem download_short_read_leaves_partial_file_witness :
    (attemptHolders "me" "a.txt" []
      [("h", HolderBehavior.fileInfo 9 [1, 2])]).2 = .incomplete ∧
    (attemptHolders "me" "a.txt" []
      [("h", HolderBehavior.fileInfo 9 [1, 2])]).1.lookup "a.txt" = some 3 :=
  download_short_read_leaves_partial_file "me" "a.txt" [] "h" 9 [1, 2] []
    (by decide) (by decide)

/-! ## Message channel: digits and numbers (claim C5 groundwork) -/

theorem digitChar_facts : ∀ d, d < 10 →
    (Char.ofNat (48 + d)).toNat = 48 + d ∧
    isDigitChar (Char.ofNat (48 + d)) = true ∧
    isWsChar (Char.ofNat (48 + d)) = false ∧
    Char.ofNat (48 + d) ≠ 'n' ∧ Char.ofNat (48 + d) ≠ 't' ∧
    Char.ofNat (48 + d) ≠ 'f' ∧ Char.ofNat (48 + d) ≠ '\"' ∧
    Char.ofNat (48 + d) ≠ '[' ∧ Char.ofNat (48 + d) ≠ '\x7b' ∧
    Char.ofNat (48 + d) ≠ '-' ∧ Char.ofNat (48 + d) ≠ DELIM ∧
    Char.ofNat (48 + d) ≠ ']' ∧ Char.ofNat (48 + d) ≠ '\x7d' := by
  decide

theorem hexDigitChar_facts : ∀ d, d < 16 →
    hexVal (hexDigitChar d) = some d ∧ hexDigitChar d ≠ DELIM := by
  decide

theorem natDigits_head : ∀ m, ∃ d t, d < 10 ∧
    natDigits m = Char.ofNat (48 + d) :: t := by
  intro m
  induction m using Nat.strong_induction_on with
  | _ m ih =>
    by_cases hm : m < 10
    · exact ⟨m, [], hm, by rw [natDigits, if_pos hm]⟩
    · obtain ⟨d, t, hd, ht⟩ := ih (m / 10) (Nat.div_lt_self (by omega) (by omega))
      exact ⟨d, t ++ [Char.ofNat (48 + m % 10)], hd, by
        rw [natDigits, if_neg hm, ht, List.cons_append]⟩

theorem natDigits_all_digits : ∀ m c, c ∈ natDigits m → isDigitChar c = true := by
  intro m
  induction m using Nat.strong_induction_on with
  | _ m ih =>
    intro c hc
    by_cases hm : m < 10
    · rw [natDigits, if_pos hm] at hc
      obtain rfl : c = Char.ofNat (48 + m) := by simpa using hc
      exact (digitChar_facts m hm).2.1
    · rw [natDigits, if_neg hm] at hc
      rcases List.mem_append.mp hc with h | h
      · exact ih (m / 10) (Nat.div_lt_self (by omega) (by omega)) c h
      · obtain rfl : c = Char.ofNat (48 + m % 10) := by simpa using h
        exact (digitChar_facts _ (Nat.mod_lt m (by omega))).2.1

theorem natDigits_delim_free : ∀ m c, c ∈ natDigits m → c ≠ DELIM := by
  intro m
  induction m using Nat.strong_induction_on with
  | _ m ih =>
    intro c hc
    by_cases hm : m < 10
    · rw [natDigits, if_pos hm] at hc
      obtain rfl : c = Char.ofNat (48 + m) := by simpa using hc
      exact (digitChar_facts m hm).2.2.2.2.2.2.2.2.2.2.1
    · rw [natDigits, if_neg hm] at hc
      rcases List.mem_append.mp hc with h | h
      · exact ih (m / 10) (Nat.div_lt_self (by omega) (by omega)) c h
      · obtain rfl : c = Char.ofNat (48 + m % 10) := by simpa using h
        exact (digitChar_facts _
          (Nat.mod_lt m (by omega))).2.2.2.2.2.2.2.2.2.2.1

theorem natDigits_foldl : ∀ m acc,
    (natDigits m).foldl (fun a c => a * 10 + (c.toNat - 48)) acc =
      acc * 10 ^ (natDigits m).length + m := by
  intro m
  induction m using Nat.strong_induction_on with
  | _ m ih =>
    intro acc
    by_cases hm : m < 10
    · rw [natDigits, if_pos hm]
      simp only [List.foldl_cons, List.foldl_nil, List.length_cons,
        List.length_nil, (digitChar_facts m hm).1, pow_one, Nat.zero_add]
      omega
    · have hd : m % 10 < 10 := Nat.mod_lt m (by omega)
      rw [natDigits, if_neg hm, List.foldl_append, List.length_append,
        ih (m / 10) (Nat.div_lt_self (by omega) (by omega)) acc]
      simp [(digitChar_facts _ hd).1, pow_succ]
      have h0 : acc * (10 ^ (natDigits (m / 10)).length * 10) =
          acc * 10 ^ (natDigits (m / 10)).length * 10 := by ring
      rw [h0]
      omega

theorem parseDigits_all_then (ds : List Char)
    (hds : ∀ c ∈ ds, isDigitChar c = true) :
    ∀ rest acc, headNotDigit rest →
      parseDigits (ds ++ rest) acc =
        (ds.foldl (fun a c => a * 10 + (c.toNat - 48)) acc, rest) := by
  induction ds with
  | nil =>
    intro rest acc hrest
    match rest with
    | [] => rfl
    | c :: t =>
      have hc : isDigitChar c = false := hrest c rfl
      simp [parseDigits, hc]
  | cons d ds' ih =>
    intro rest acc hrest
    have hd : isDigitChar d = true := hds d (List.mem_cons_self d ds')
    simp only [List.cons_append, parseDigits, hd, if_pos]
    exact ih (fun c hc => hds c (List.mem_cons_of_mem d hc)) rest _ hrest

theorem parseDigits_natDigits (m : Nat) (rest : List Char)
    (hrest : headNotDigit rest) :
    ∀ d t, natDigits m = Char.ofNat (48 + d) :: t → d < 10 →
      parseDigits (t ++ rest) ((Char.ofNat (48 + d)).toNat - 48) = (m, rest) := by
  intro d t hsplit hd
  have hall : ∀ c ∈ t, isDigitChar c = true := fun c hc =>
    natDigits_all_digits m c (by rw [hsplit]; exact List.mem_cons_of_mem _ hc)
  rw [parseDigits_all_then t hall rest _ hrest]
  have hfold : (Char.ofNat (48 + d) :: t).foldl
      (fun a c => a * 10 + (c.toNat - 48)) 0 = m := by
    rw [← hsplit, natDigits_foldl]
    simp
  rw [List.foldl_cons] at hfold
  simp only [Nat.zero_mul, Nat.zero_add] at hfold
  rw [hfold]

theorem parseNumber_natDigits (m : Nat) (rest : List Char)
    (hrest : headNotDigit rest) :
    parseNumber (natDigits m ++ rest) = some (.num (m : Int), rest) := by
  obtain ⟨d, t, hd, hsplit⟩ := natDigits_head m
  rw [hsplit, List.cons_append]
  have hnotminus : Char.ofNat (48 + d) ≠ '-' :=
    (digitChar_facts d hd).2.2.2.2.2.2.2.2.2.1
  have hdig : isDigitChar (Char.ofNat (48 + d)) = true :=
    (digitChar_facts d hd).2.1
  simp only [parseNumber, if_neg hnotminus, hdig, if_pos]
  rw [parseDigits_natDigits m rest hrest d t hsplit hd]

theorem parseNumber_dumps (n : Int) (rest : List Char)
    (hrest : headNotDigit rest) :
    parseNumber (dumpsVal (.num n) ++ rest) = some (.num n, rest) := by
  by_cases hn : n < 0
  · rw [show dumpsVal (.num n) = '-' :: natDigits n.natAbs from by
      simp [dumpsVal, hn]]
    obtain ⟨d, t, hd, hsplit⟩ := natDigits_head n.natAbs
    rw [List.cons_append, hsplit, List.cons_append]
    have hdig : isDigitChar (Char.ofNat (48 + d)) = true :=
      (digitChar_facts d hd).2.1
    simp only [parseNumber, if_pos rfl, hdig, if_pos]
    rw [parseDigits_natDigits n.natAbs rest hrest d t hsplit hd, show
      -(n.natAbs : Int) = n from by omega]
  · rw [show dumpsVal (.num n) = natDigits n.natAbs from by simp [dumpsVal, hn]]
    rw [parseNumber_natDigits n.natAbs rest hrest, show
      (n.natAbs : Int) = n from by omega]

/-! ## Message channel: string escaping (claim C5 groundwork) -/

theorem escChar_delim_free (c : Char) : DELIM ∉ escChar c := by
  unfold escChar
  by_cases h1 : c = '\"'
  · rw [if_pos h1]; decide
  · rw [if_neg h1]
    by_cases h2 : c = '\\'
    · rw [if_pos h2]; decide
    · rw [if_neg h2]
      by_cases h3 : c.toNat < 32
      · rw [if_pos h3]
        have hm : ∀ x : Nat, x % 16 < 16 := fun x => Nat.mod_lt x (by omega)
        simp only [hex4, List.mem_cons, List.not_mem_nil, or_false]
        push_neg
        refine ⟨by decide, by decide, ?_, ?_, ?_, ?_⟩ <;>
          exact Ne.symm (hexDigitChar_facts _ (hm _)).2
      · rw [if_neg h3]
        intro hmem
        obtain rfl : DELIM = c := by simpa using hmem
        exact h3 (by decide)

theorem escString_delim_free (s : String) : DELIM ∉ escString s := by
  intro hmem
  obtain ⟨c, -, hc⟩ := List.mem_flatMap.mp hmem
  exact escChar_delim_free c hc

theorem escChar_quote : escChar '\"' = ['\\', '\"'] := by
  simp [escChar]

theorem escChar_backslash : escChar '\\' = ['\\', '\\'] := by
  simp [escChar]

theorem escChar_ctrl {c : Char} (h1 : c ≠ '\"') (h2 : c ≠ '\\')
    (h3 : c.toNat < 32) : escChar c = '\\' :: 'u' :: hex4 c.toNat := by
  rw [escChar, if_neg h1, if_neg h2, if_pos h3]

theorem escChar_raw {c : Char} (h1 : c ≠ '\"') (h2 : c ≠ '\\')
    (h3 : ¬c.toNat < 32) : escChar c = [c] := by
  rw [escChar, if_neg h1, if_neg h2, if_neg h3]

theorem psb_quote (rest : List Char) :
    parseStringBody ('\"' :: rest) = some ([], rest) := by
  rw [parseStringBody.eq_def]
  simp

theorem psb_esc_quote (rest : List Char) :
    parseStringBody ('\\' :: '\"' :: rest) =
      (parseStringBody rest).map fun p => ('\"' :: p.1, p.2) := by
  rw [parseStringBody.eq_def]
  simp

theorem psb_esc_backslash (rest : List Char) :
    parseStringBody ('\\' :: '\\' :: rest) =
      (parseStringBody rest).map fun p => ('\\' :: p.1, p.2) := by
  rw [parseStringBody.eq_def]
  simp

theorem psb_esc_u {h1 h2 h3 h4 : Char} {a b c' d : Nat}
    (e1 : hexVal h1 = some a) (e2 : hexVal h2 = some b)
    (e3 : hexVal h3 = some c') (e4 : hexVal h4 = some d) (rest : List Char) :
    parseStringBody ('\\' :: 'u' :: h1 :: h2 :: h3 :: h4 :: rest) =
      (parseStringBody rest).map fun p =>
        (Char.ofNat (a * 4096 + b * 256 + c' * 16 + d) :: p.1, p.2) := by
  rw [parseStringBody.eq_def]
  simp [e1, e2, e3, e4]

theorem psb_raw {c : Char} (h1 : c ≠ '\"') (h2 : c ≠ '\\') (rest : List Char) :
    parseStringBody (c :: rest) =
      (parseStringBody rest).map fun p => (c :: p.1, p.2) := by
  rw [parseStringBody.eq_def]
  simp [h1, h2]

theorem parseStringBody_escape : ∀ (cs : List Char) (rest : List Char),
    parseStringBody (cs.flatMap escChar ++ '\"' :: rest) = some (cs, rest) := by
  intro cs
  induction cs with
  | nil =>
    intro rest
    simpa using psb_quote rest
  | cons c cs' ih =>
    intro rest
    rw [List.flatMap_cons, List.append_assoc]
    by_cases h1 : c = '\"'
    · subst h1
      rw [escChar_quote, List.cons_append, List.cons_append, List.nil_append,
        psb_esc_quote, ih]
      rfl
    · by_cases h2 : c = '\\'
      · subst h2
        rw [escChar_backslash, List.cons_append, List.cons_append,
          List.nil_append, psb_esc_backslash, ih]
        rfl
      · by_cases h3 : c.toNat < 32
        · have hm : ∀ x : Nat, x % 16 < 16 := fun x => Nat.mod_lt x (by omega)
          have recomb : c.toNat / 4096 % 16 * 4096 + c.toNat / 256 % 16 * 256 +
              c.toNat / 16 % 16 * 16 + c.toNat % 16 = c.toNat := by omega
          rw [escChar_ctrl h1 h2 h3]
          simp only [hex4, List.cons_append, List.nil_append]
          rw [psb_esc_u (hexDigitChar_facts _ (hm _)).1
            (hexDigitChar_facts _ (hm _)).1 (hexDigitChar_facts _ (hm _)).1
            (hexDigitChar_facts _ (hm _)).1, ih, recomb, Char.ofNat_toNat]
          rfl
        · rw [escChar_raw h1 h2 h3, List.cons_append, List.nil_append,
            psb_raw h1 h2, ih]
          rfl

/-! ## Message channel: whitespace and head-shape lemmas -/

theorem skipWs_not_ws {c : Char} (h : isWsChar c = false) (l : List Char) :
    skipWs (c :: l) = c :: l := by
  simp [skipWs, h]

theorem skipWs_idem (s : List Char) : skipWs (skipWs s) = skipWs s := by
  induction s with
  | nil => rfl
  | cons c t ih =>
    by_cases h : isWsChar c
    · simp [skipWs, h, ih]
    · simp [skipWs, h]

theorem parseVal_skipWs (fuel : Nat) (s : List Char) :
    parseVal fuel s = parseVal fuel (skipWs s) := by
  cases fuel with
  | zero => rfl
  | succ f =>
    rw [parseVal, parseVal, skipWs_idem]

theorem headNotDigit_cons {c : Char} (h : isDigitChar c = false)
    (l : List Char) : headNotDigit (c :: l) := by
  intro x hx
  obtain rfl : c = x := by simpa using hx
  exact h

theorem headNotDigit_nil : headNotDigit [] := by
  intro x hx
  simp at hx

theorem headNotDigit_elems (xs : List Json) (r : List Char) :
    headNotDigit (dumpsElems xs ++ ']' :: r) := by
  cases xs with
  | nil => exact headNotDigit_cons (by decide) r
  | cons x xs' =>
    rw [dumpsElems]
    exact headNotDigit_cons (by decide) _

theorem headNotDigit_fields (fs : List (String × Json)) (r : List Char) :
    headNotDigit (dumpsFields fs ++ '\x7d' :: r) := by
  cases fs with
  | nil => exact headNotDigit_cons (by decide) r
  | cons kv fs' =>
    rw [dumpsFields]
    exact headNotDigit_cons (by decide) _

/-! ## Message channel: facts about serialized output (claim C5) -/

theorem dumps_facts : ∀ n : Nat,
    (∀ j, jsizeV j ≤ n →
      DELIM ∉ dumpsVal j ∧ jsizeV j ≤ (dumpsVal j).length) ∧
    (∀ xs, jsizeL xs ≤ n →
      DELIM ∉ dumpsElems xs ∧ jsizeL xs ≤ (dumpsElems xs).length) ∧
    (∀ kv, jsizeKV kv ≤ n →
      DELIM ∉ dumpsField kv ∧ jsizeKV kv ≤ (dumpsField kv).length) ∧
    (∀ fs, jsizeF fs ≤ n →
      DELIM ∉ dumpsFields fs ∧ jsizeF fs ≤ (dumpsFields fs).length) := by
  intro n
  induction n using Nat.strong_induction_on with
  | _ n ih =>
    refine ⟨?_, ?_, ?_, ?_⟩
    · intro j hj
      cases j with
      | null => exact ⟨by decide, by decide⟩
      | bool b => cases b <;> exact ⟨by decide, by decide⟩
      | num m =>
        constructor
        · intro hmem
          rw [dumpsVal] at hmem
          by_cases hm : m < 0
          · rw [if_pos hm] at hmem
            rcases List.mem_cons.mp hmem with h | h
            · exact absurd h (by decide)
            · exact natDigits_delim_free _ _ h rfl
          · rw [if_neg hm] at hmem
            exact natDigits_delim_free _ _ hmem rfl
        · rw [dumpsVal, jsizeV]
          obtain ⟨d, t, -, hsplit⟩ := natDigits_head m.natAbs
          by_cases hm : m < 0 <;> simp [hm, hsplit, List.length_cons]
      | str s =>
        constructor
        · rw [dumpsVal]
          intro hmem
          rcases List.mem_cons.mp hmem with h | h
          · exact absurd h (by decide)
          · rcases List.mem_append.mp h with h' | h'
            · exact escString_delim_free s h'
            · exact absurd (by simpa using h') (by decide)
        · rw [dumpsVal, jsizeV]
          simp
      | arr xs =>
        cases xs with
        | nil => exact ⟨by decide, by decide⟩
        | cons x xs' =>
          rw [jsizeV] at hj
          have hx := (ih (jsizeV x) (by omega)).1 x le_rfl
          have hxs := (ih (jsizeL xs') (by omega)).2.1 xs' le_rfl
          constructor
          · rw [dumpsVal]
            intro hmem
            rcases List.mem_cons.mp hmem with h | h
            · exact absurd h (by decide)
            · rcases List.mem_append.mp h with h' | h'
              · rcases List.mem_append.mp h' with h'' | h''
                · exact hx.1 h''
                · exact hxs.1 h''
              · exact absurd (by simpa using h') (by decide)
          · rw [dumpsVal, jsizeV]
            have := hx.2
            have := hxs.2
            simp [List.length_append]
            omega
      | obj fs =>
        cases fs with
        | nil => exact ⟨by decide, by decide⟩
        | cons kv fs' =>
          rw [jsizeV] at hj
          have hkv := (ih (jsizeKV kv) (by omega)).2.2.1 kv le_rfl
          have hfs := (ih (jsizeF fs') (by omega)).2.2.2 fs' le_rfl
          constructor
          · rw [dumpsVal]
            intro hmem
            rcases List.mem_cons.mp hmem with h | h
            · exact absurd h (by decide)
            · rcases List.mem_append.mp h with h' | h'
              · rcases List.mem_append.mp h' with h'' | h''
                · exact hkv.1 h''
                · exact hfs.1 h''
              · exact absurd (by simpa using h') (by decide)
          · rw [dumpsVal, jsizeV]
            have := hkv.2
            have := hfs.2
            simp [List.length_append]
            omega
    · intro xs hxs
      cases xs with
      | nil => exact ⟨by decide, by decide⟩
      | cons x xs' =>
        rw [jsizeL] at hxs
        have hx := (ih (jsizeV x) (by omega)).1 x le_rfl
        have hrest := (ih (jsizeL xs') (by omega)).2.1 xs' le_rfl
        constructor
        · rw [dumpsElems]
          intro hmem
          rcases List.mem_cons.mp hmem with h | h
          · exact absurd h (by decide)
          · rcases List.mem_cons.mp h with h' | h'
            · exact absurd h' (by decide)
            · rcases List.mem_append.mp h' with h'' | h''
              · exact hx.1 h''
              · exact hrest.1 h''
        · rw [dumpsElems, jsizeL]
          have := hx.2
          have := hrest.2
          simp [List.length_append]
          omega
    · intro kv hkv
      obtain ⟨k, v⟩ := kv
      rw [jsizeKV] at hkv
      have hv := (ih (jsizeV v) (by omega)).1 v le_rfl
      constructor
      · rw [dumpsField]
        intro hmem
        rcases List.mem_cons.mp hmem with h | h
        · exact absurd h (by decide)
        · rcases List.mem_append.mp h with h' | h'
          · exact escString_delim_free k h'
          · rcases List.mem_cons.mp h' with h'' | h'' <;>
              [exact absurd h'' (by decide);
               rcases List.mem_cons.mp h'' with h3 | h3]
            · exact absurd h3 (by decide)
            · rcases List.mem_cons.mp h3 with h4 | h4
              · exact absurd h4 (by decide)
              · exact hv.1 h4
      · rw [dumpsField, jsizeKV]
        have := hv.2
        simp [List.length_append]
        omega
    · intro fs hfs
      cases fs with
      | nil => exact ⟨by decide, by decide⟩
      | cons kv fs' =>
        rw [jsizeF] at hfs
        have hkv := (ih (jsizeKV kv) (by omega)).2.2.1 kv le_rfl
        have hrest := (ih (jsizeF fs') (by omega)).2.2.2 fs' le_rfl
        constructor
        · rw [dumpsFields]
          intro hmem
          rcases List.mem_cons.mp hmem with h | h
          · exact absurd h (by decide)
          · rcases List.mem_cons.mp h with h' | h'
            · exact absurd h' (by decide)
            · rcases List.mem_append.mp h' with h'' | h''
              · exact hkv.1 h''
              · exact hrest.1 h''
        · rw [dumpsFields, jsizeF]
          have := hkv.2
          have := hrest.2
          simp [List.length_append]
          omega

theorem dumpsVal_delim_free (j : Json) : DELIM ∉ dumpsVal j :=
  ((dumps_facts (jsizeV j)).1 j le_rfl).1

theorem jsizeV_le_length (j : Json) : jsizeV j ≤ (dumpsVal j).length :=
  ((dumps_facts (jsizeV j)).1 j le_rfl).2

theorem dumpsVal_head (j : Json) : ∃ c t, dumpsVal j = c :: t ∧
    isWsChar c = false ∧ c ≠ ']' := by
  cases j with
  | null => exact ⟨'n', _, rfl, by decide, by decide⟩
  | bool b =>
    cases b
    · exact ⟨'f', _, rfl, by decide, by decide⟩
    · exact ⟨'t', _, rfl, by decide, by decide⟩
  | num m =>
    by_cases hm : m < 0
    · exact ⟨'-', natDigits m.natAbs, by rw [dumpsVal, if_pos hm], by decide,
        by decide⟩
    · obtain ⟨d, t, hd, hsplit⟩ := natDigits_head m.natAbs
      exact ⟨Char.ofNat (48 + d), t, by rw [dumpsVal, if_neg hm, hsplit],
        (digitChar_facts d hd).2.2.1,
        (digitChar_facts d hd).2.2.2.2.2.2.2.2.2.2.2.1⟩
  | str s =>
    exact ⟨'\"', escString s ++ ['\"'], by simp [dumpsVal], by decide,
      by decide⟩
  | arr xs =>
    cases xs with
    | nil => exact ⟨'[', _, rfl, by decide, by decide⟩
    | cons x xs' =>
      exact ⟨'[', dumpsVal x ++ dumpsElems xs' ++ [']'], by simp [dumpsVal],
        by decide, by decide⟩
  | obj fs =>
    cases fs with
    | nil => exact ⟨'\x7b', _, rfl, by decide, by decide⟩
    | cons kv fs' =>
      exact ⟨'\x7b', dumpsField kv ++ dumpsFields fs' ++ ['\x7d'],
        by simp [dumpsVal], by decide, by decide⟩

/-! ## Message channel: the parser re-reads what the serializer wrote -/

theorem dumpsField_head (kv : String × Json) :
    ∃ t, dumpsField kv = '\"' :: t := by
  obtain ⟨k, v⟩ := kv
  exact ⟨escString k ++ '\"' :: ':' :: ' ' :: dumpsVal v,
    by rw [dumpsField, List.cons_append]⟩

theorem parseField_skipWs (fuel : Nat) (s : List Char) :
    parseField fuel s = parseField fuel (skipWs s) := by
  cases fuel with
  | zero => rfl
  | succ f => rw [parseField, parseField, skipWs_idem]

theorem parse_dumps_round_trip : ∀ fuel : Nat,
    (∀ j rest, jsizeV j < fuel → headNotDigit rest →
      parseVal fuel (dumpsVal j ++ rest) = some (j, rest)) ∧
    (∀ xs rest, jsizeL xs < fuel → headNotDigit rest →
      parseElems fuel (dumpsElems xs ++ ']' :: rest) = some (xs, rest)) ∧
    (∀ kv rest, jsizeKV kv < fuel → headNotDigit rest →
      parseField fuel (dumpsField kv ++ rest) = some (kv, rest)) ∧
    (∀ fs rest, jsizeF fs < fuel → headNotDigit rest →
      parseFields fuel (dumpsFields fs ++ '\x7d' :: rest) = some (fs, rest)) := by
  intro fuel
  induction fuel with
  | zero =>
    refine ⟨?_, ?_, ?_, ?_⟩ <;> intro a rest h hrest <;> exact absurd h (by omega)
  | succ fuel ih =>
    refine ⟨?_, ?_, ?_, ?_⟩
    · intro j rest hj hrest
      rw [parseVal]
      cases j with
      | null => simp [dumpsVal, skipWs, isWsChar]
      | bool b => cases b <;> simp [dumpsVal, skipWs, isWsChar]
      | num m =>
        by_cases hm : m < 0
        · have hgoal := parseNumber_dumps m rest hrest
          rw [dumpsVal, if_pos hm] at hgoal ⊢
          rw [List.cons_append] at hgoal ⊢
          rw [skipWs_not_ws (by decide)]
          simp only [if_neg (by decide : ¬('-' = 'n')),
            if_neg (by decide : ¬('-' = 't')), if_neg (by decide : ¬('-' = 'f')),
            if_neg (by decide : ¬('-' = '\"')), if_neg (by decide : ¬('-' = '[')),
            if_neg (by decide : ¬('-' = '\x7b'))]
          exact hgoal
        · obtain ⟨d, t, hd, hsplit⟩ := natDigits_head m.natAbs
          have hC := digitChar_facts d hd
          have hgoal := parseNumber_dumps m rest hrest
          rw [dumpsVal, if_neg hm, hsplit] at hgoal ⊢
          rw [List.cons_append] at hgoal ⊢
          rw [skipWs_not_ws hC.2.2.1]
          simp only [if_neg hC.2.2.2.1, if_neg hC.2.2.2.2.1,
            if_neg hC.2.2.2.2.2.1, if_neg hC.2.2.2.2.2.2.1,
            if_neg hC.2.2.2.2.2.2.2.1, if_neg hC.2.2.2.2.2.2.2.2.1]
          exact hgoal
      | str s =>
        rw [dumpsVal]
        simp only [List.cons_append, List.append_assoc, List.singleton_append,
          List.nil_append]
        rw [skipWs_not_ws (by decide)]
        have hps := parseStringBody_escape s.data rest
        simp [escString, hps]
      | arr xs =>
        cases xs with
        | nil => simp [dumpsVal, skipWs, isWsChar]
        | cons x xs' =>
          rw [jsizeV] at hj
          obtain ⟨c0, t0, hhead, hws, hne⟩ := dumpsVal_head x
          have h1 := ih.1 x (dumpsElems xs' ++ ']' :: rest) (by omega)
            (headNotDigit_elems xs' rest)
          have h2 := ih.2.1 xs' rest (by omega) hrest
          rw [dumpsVal]
          simp only [List.cons_append, List.append_assoc, List.singleton_append,
            List.nil_append]
          rw [skipWs_not_ws (by decide)]
          simp only [if_neg (by decide : ¬('[' = 'n')),
            if_neg (by decide : ¬('[' = 't')), if_neg (by decide : ¬('[' = 'f')),
            if_neg (by decide : ¬('[' = '\"')), if_pos rfl, if_true]
          rw [hhead, List.cons_append, skipWs_not_ws hws]
          simp only [if_neg hne]
          rw [← List.cons_append, ← hhead, h1]
          simp [h2]
      | obj fs =>
        cases fs with
        | nil => simp [dumpsVal, skipWs, isWsChar]
        | cons kv fs' =>
          rw [jsizeV] at hj
          obtain ⟨tf, htf⟩ := dumpsField_head kv
          have h1 := ih.2.2.1 kv (dumpsFields fs' ++ '\x7d' :: rest) (by omega)
            (headNotDigit_fields fs' rest)
          have h2 := ih.2.2.2 fs' rest (by omega) hrest
          rw [dumpsVal]
          simp only [List.cons_append, List.append_assoc, List.singleton_append,
            List.nil_append]
          rw [skipWs_not_ws (by decide)]
          simp only [if_neg (by decide : ¬('\x7b' = 'n')),
            if_neg (by decide : ¬('\x7b' = 't')),
            if_neg (by decide : ¬('\x7b' = 'f')),
            if_neg (by decide : ¬('\x7b' = '\"')),
            if_neg (by decide : ¬('\x7b' = '[')), if_pos rfl, if_true]
          rw [htf, List.cons_append, skipWs_not_ws (by decide)]
          simp only [if_neg (by decide : ¬('\"' = '\x7d'))]
          rw [← List.cons_append, ← htf, h1]
          simp [h2]
    · intro xs rest hxs hrest
      rw [parseElems]
      cases xs with
      | nil =>
        simp [dumpsElems, skipWs, isWsChar]
      | cons x xs' =>
        rw [jsizeL] at hxs
        obtain ⟨c0, t0, hhead, hws, -⟩ := dumpsVal_head x
        have h1 := ih.1 x (dumpsElems xs' ++ ']' :: rest) (by omega)
          (headNotDigit_elems xs' rest)
        have h2 := ih.2.1 xs' rest (by omega) hrest
        rw [dumpsElems]
        simp only [List.cons_append, List.append_assoc, List.nil_append]
        rw [skipWs_not_ws (by decide)]
        simp only [if_neg (by decide : ¬(',' = ']')), if_pos rfl, if_true]
        rw [parseVal_skipWs]
        rw [show skipWs (' ' :: (dumpsVal x ++ (dumpsElems xs' ++ ']' :: rest)))
            = skipWs (dumpsVal x ++ (dumpsElems xs' ++ ']' :: rest)) from by
          simp [skipWs, isWsChar]]
        rw [hhead, List.cons_append, skipWs_not_ws hws, ← List.cons_append,
          ← hhead, h1]
        simp [h2]
    · intro kv rest hkv hrest
      obtain ⟨k, v⟩ := kv
      rw [jsizeKV] at hkv
      obtain ⟨c0, t0, hhead, hws, -⟩ := dumpsVal_head v
      have h1 := ih.1 v rest (by omega) hrest
      rw [parseField, dumpsField]
      simp only [List.cons_append, List.append_assoc, List.nil_append]
      rw [skipWs_not_ws (by decide)]
      simp only [if_pos rfl, if_true]
      rw [show escString k = k.data.flatMap escChar from rfl]
      rw [parseStringBody_escape k.data (':' :: ' ' :: (dumpsVal v ++ rest))]
      simp only []
      rw [skipWs_not_ws (by decide)]
      simp only [if_pos rfl, if_true]
      rw [parseVal_skipWs]
      rw [show skipWs (' ' :: (dumpsVal v ++ rest))
          = skipWs (dumpsVal v ++ rest) from by simp [skipWs, isWsChar]]
      rw [hhead, List.cons_append, skipWs_not_ws hws, ← List.cons_append,
        ← hhead, h1]
      simp
    · intro fs rest hfs hrest
      rw [parseFields]
      cases fs with
      | nil =>
        simp [dumpsFields, skipWs, isWsChar]
      | cons kv fs' =>
        rw [jsizeF] at hfs
        obtain ⟨tf, htf⟩ := dumpsField_head kv
        have h1 := ih.2.2.1 kv (dumpsFields fs' ++ '\x7d' :: rest) (by omega)
          (headNotDigit_fields fs' rest)
        have h2 := ih.2.2.2 fs' rest (by omega) hrest
        rw [dumpsFields]
        simp only [List.cons_append, List.append_assoc, List.nil_append]
        rw [skipWs_not_ws (by decide)]
        simp only [if_neg (by decide : ¬(',' = '\x7d')), if_pos rfl, if_true]
        rw [parseField_skipWs]
        rw [show skipWs (' ' :: (dumpsField kv ++ (dumpsFields fs'
              ++ '\x7d' :: rest)))
            = skipWs (dumpsField kv ++ (dumpsFields fs' ++ '\x7d' :: rest))
            from by simp [skipWs, isWsChar]]
        rw [htf, List.cons_append, skipWs_not_ws (by decide),
          ← List.cons_append, ← htf, h1]
        simp [h2]
/-! ## Message channel: the round trip (claim C5) -/

theorem loadsL_dumps (j : Json) : loadsL (dumpsVal j) = some j := by
  have hfuel : jsizeV j < (dumpsVal j).length + 1 :=
    Nat.lt_succ_of_le (jsizeV_le_length j)
  have hrt := (parse_dumps_round_trip ((dumpsVal j).length + 1)).1 j []
    hfuel headNotDigit_nil
  rw [List.append_nil] at hrt
  rw [loadsL, hrt]
  rfl

theorem recvLine_frame {payload : List Char} (hfree : DELIM ∉ payload)
    (rest : List Char) :
    recvLine (payload ++ DELIM :: rest) = some (payload, rest) := by
  induction payload with
  | nil => simp [recvLine]
  | cons c t ih =>
    have hc : c ≠ DELIM := fun h => hfree (h ▸ List.mem_cons_self c t)
    have ht : DELIM ∉ t := fun h => hfree (List.mem_cons_of_mem c h)
    rw [List.cons_append, recvLine, if_neg hc, ih ht]
    rfl

/-- Claim C5: any structured message written by `send_json` and read back by
`recv_json` from the resulting byte stream deserializes to a value equal to
the original, leaving the rest of the stream intact; in particular the
delimiter byte never occurs (unescaped) inside the serialized payload, so
the framing never splits a message. -/
theorem message_channel_round_trip (j : Json) (rest : List Char) :
    recv_json (send_json j ++ rest) = some (some j, rest) ∧
    DELIM ∉ dumpsVal j := by
  have hfree : DELIM ∉ dumpsVal j := dumpsVal_delim_free j
  refine ⟨?_, hfree⟩
  rw [send_json, recv_json, List.append_assoc, List.singleton_append,
    recvLine_frame hfree rest]
  rw [Option.map_some']
  rw [loadsL_dumps j]

end Redep2p
